import Mathlib

/-!
Shallow embedding of the Backtester101 trading backtester
(`backtester/backtester.py`, `backtester/performance.py`).

Monetary quantities and prices are modelled as exact rationals `ℚ`;
trade signals are integers.  Floating-point NaN/Inf behaviour of the
pipeline is modelled explicitly where a claim depends on it (`NPFloat`
for numpy-float division, `Option` as a NaN sentinel for pandas
reductions over possibly-empty data).
-/

/-- Configuration of the `Backtester` class: constructor arguments
`initial_capital`, `commission_pct`, `commission_fixed`. -/
structure Backtester where
  initial_capital : ℚ
  commission_pct : ℚ
  commission_fixed : ℚ
deriving DecidableEq, Repr

/-- One entry of `self.assets_data[asset]`: the per-asset mutable record
with keys `cash`, `positions`, `position_value`, `total_value`. -/
structure AssetState where
  cash : ℚ
  positions : ℚ
  position_value : ℚ
  total_value : ℚ
deriving DecidableEq, Repr

/-- One row of an asset's input series: the `close` price and the `signal`
column consumed by `Backtester.backtest`. -/
structure PriceSignalRecord where
  close : ℚ
  signal : ℤ
deriving DecidableEq, Repr

/-- `Backtester.calculate_commission`: `max(trade_value * self.commission_pct,
self.commission_fixed)`. -/
def calculate_commission (B : Backtester) (trade_value : ℚ) : ℚ :=
  max (trade_value * B.commission_pct) B.commission_fixed

/-- `Backtester.execute_trade`: buy with all cash when `signal > 0 and cash > 0`,
liquidate the whole position when `signal < 0 and positions > 0`, otherwise
leave the state unchanged. -/
def execute_trade (B : Backtester) (s : AssetState) (signal : ℤ) (price : ℚ) :
    AssetState :=
  if signal > 0 ∧ s.cash > 0 then
    let trade_value := s.cash
    let commission := calculate_commission B trade_value
    let shares_to_buy := (trade_value - commission) / price
    { s with positions := s.positions + shares_to_buy, cash := s.cash - trade_value }
  else if signal < 0 ∧ s.positions > 0 then
    let trade_value := s.positions * price
    let commission := calculate_commission B trade_value
    { s with cash := s.cash + trade_value - commission, positions := 0 }
  else
    s

/-- `Backtester.update_portfolio`: revalue the holdings at the latest price,
`position_value = positions * price`, `total_value = cash + position_value`. -/
def update_portfolio (s : AssetState) (price : ℚ) : AssetState :=
  let pv := s.positions * price
  { s with position_value := pv, total_value := s.cash + pv }

/-- One step of the driver's inner loop: `execute_trade` then
`update_portfolio`, both at the row's close price. -/
def stepAsset (B : Backtester) (s : AssetState) (r : PriceSignalRecord) :
    AssetState :=
  update_portfolio (execute_trade B s r.signal r.close) r.close

/-- The sequence of asset states after each processed row (the successive
contents of `self.assets_data[asset]` at the end of each loop iteration). -/
def asset_trace (B : Backtester) : AssetState → List PriceSignalRecord → List AssetState
  | _, [] => []
  | s, r :: rs => stepAsset B s r :: asset_trace B (stepAsset B s r) rs

/-- `self.portfolio_history[asset]`: the `total_value` appended after each
processed row. -/
def asset_values (B : Backtester) : AssetState → List PriceSignalRecord → List ℚ
  | _, [] => []
  | s, r :: rs => (stepAsset B s r).total_value :: asset_values B (stepAsset B s r) rs

/-- `daily[i] += v`: elementwise in-place addition at one index of the
combined daily-value accumulator. -/
def listAddAt : List ℚ → ℕ → ℚ → List ℚ
  | [], _, _ => []
  | x :: xs, 0, v => (x + v) :: xs
  | x :: xs, n + 1, v => x :: listAddAt xs n v

/-- The inner loop of `Backtester.backtest` for one asset: `L` is
`len(data[asset])`, `i` is `len(self.portfolio_history[asset]) - 1` after the
current append, `daily` is `self.daily_portfolio_values`.  A new total value is
appended while the accumulator is shorter than this asset's series, otherwise
it is added into the slot at index `i`. -/
def run_asset (B : Backtester) (L : ℕ) :
    AssetState → List PriceSignalRecord → ℕ → List ℚ → List ℚ
  | _, [], _, daily => daily
  | s, r :: rs, i, daily =>
    let s2 := stepAsset B s r
    let daily2 :=
      if daily.length < L then daily ++ [s2.total_value]
      else listAddAt daily i s2.total_value
    run_asset B L s2 rs (i + 1) daily2

/-- The fresh per-asset record created at the start of `Backtester.backtest`:
cash `initial_capital / len(data)`, no positions. -/
def initState (B : Backtester) (n : ℕ) : AssetState :=
  ⟨B.initial_capital / n, 0, 0, 0⟩

/-- `Backtester.backtest` on a mapping from assets to series (a single
DataFrame is wrapped as a one-element mapping by the code): initialise each
asset with an equal share of the capital, run the per-asset loop, and return
`self.daily_portfolio_values`. -/
def backtest (B : Backtester) (series : List (List PriceSignalRecord)) : List ℚ :=
  series.foldl
    (fun daily recs => run_asset B recs.length (initState B series.length) recs 0 daily)
    []

/-- `calculate_total_return`: `final_portfolio_value / initial_capital - 1`. -/
def calculate_total_return (final_portfolio_value initial_capital : ℚ) : ℚ :=
  final_portfolio_value / initial_capital - 1

/-- Result of a numpy float64 arithmetic expression: a finite value, NaN,
or a signed infinity. -/
inductive NPFloat where
  | val (q : ℚ)
  | nan
  | inf
  | ninf
deriving DecidableEq, Repr

/-- numpy float64 division: dividing by zero emits a warning (never a Python
exception) and yields a signed infinity, or NaN for `0/0`. -/
def npdiv (x y : ℚ) : NPFloat :=
  if y = 0 then
    if 0 < x then NPFloat.inf else if x < 0 then NPFloat.ninf else NPFloat.nan
  else
    NPFloat.val (x / y)

/-- `calculate_sharpe_ratio`: `(annualized_return - risk_free_rate) /
annualized_volatility` under numpy float64 semantics (the volatility produced
by the pipeline is an `np.float64`).  The code wraps the division in
`try/except RuntimeError`, but numpy division by zero raises no exception at
all (and plain-float division raises `ZeroDivisionError`, which is not a
`RuntimeError` either), so the `except` branch returning `np.nan` is dead. -/
def calculate_sharpe_ratio (annualized_return annualized_volatility risk_free_rate : ℚ) :
    NPFloat :=
  npdiv (annualized_return - risk_free_rate) annualized_volatility

/-- Helper for the running maximum: `cummaxAux m xs` is the tail of the
cumulative maximum of `m :: xs`. -/
def cummaxAux (m : ℚ) : List ℚ → List ℚ
  | [] => []
  | x :: xs => max m x :: cummaxAux (max m x) xs

/-- pandas `Series.cummax`: entry `t` is the maximum of the values up to and
including index `t`. -/
def cummax : List ℚ → List ℚ
  | [] => []
  | x :: xs => x :: cummaxAux x xs

/-- pandas `Series.min`: the minimum entry, or NaN (modelled `none`) for an
empty series. -/
def listMin : List ℚ → Option ℚ
  | [] => none
  | x :: xs =>
    some
      (match listMin xs with
        | none => x
        | some m => min x m)

/-- `calculate_maximum_drawdown`:
`(portfolio_values / portfolio_values.cummax() - 1).min()`. -/
def calculate_maximum_drawdown (portfolio_values : List ℚ) : Option ℚ :=
  listMin
    (List.zipWith (fun v m => v / m - 1) portfolio_values (cummax portfolio_values))

/-- Arithmetic mean of a series (pandas `Series.mean`). -/
def mean (xs : List ℚ) : ℚ := xs.sum / xs.length

/-- Sample variance with `ddof = 1` (the pandas `Series.std` default, before
the square root). -/
def sampleVar (xs : List ℚ) : ℚ :=
  (xs.map (fun x => (x - mean xs) ^ 2)).sum / ((xs.length : ℚ) - 1)

/-- pandas `Series.std` (`ddof = 1`): NaN (modelled `none`) on a series with
fewer than two entries, otherwise the square root of the sample variance. -/
noncomputable def sampleStd (xs : List ℚ) : Option ℝ :=
  if xs.length ≤ 1 then none else some (Real.sqrt ((sampleVar xs : ℚ) : ℝ))

/-- `calculate_sortino_ratio`: filter the negative daily returns, compute
`downside_volatility = negative_returns.std() * np.sqrt(252)`, and return
`(annualized_return - risk_free_rate) / downside_volatility` when
`downside_volatility > 0`, else `np.nan` (modelled `none`; a NaN downside
volatility fails the `> 0` comparison, so it also lands in the NaN branch). -/
noncomputable def calculate_sortino_ratio (daily_returns : List ℚ)
    (annualized_return risk_free_rate : ℝ) : Option ℝ :=
  match sampleStd (daily_returns.filter (fun x => x < 0)) with
  | none => none
  | some sd =>
    if 0 < sd * Real.sqrt 252 then
      some ((annualized_return - risk_free_rate) / (sd * Real.sqrt 252))
    else none

/-- Pointwise scaling of an asset state by a factor: used to compare a run on
a fraction of the capital with a run on the full capital. -/
def scale (l : ℚ) (s : AssetState) : AssetState :=
  ⟨l * s.cash, l * s.positions, l * s.position_value, l * s.total_value⟩

/-- The default configuration of the `Backtester` constructor:
`initial_capital = 10000.0`, `commission_pct = 0.001`, `commission_fixed = 1.0`. -/
def defaultBacktester : Backtester := ⟨10000, 1/1000, 1⟩

/-- C5: with a positive signal and positive cash, the executor commits all
available cash: positions grow by `(cash - commission(cash)) / price` and the
cash balance becomes exactly 0. -/
theorem execute_trade_buy_invests_all_cash (B : Backtester) (s : AssetState)
    (signal : ℤ) (price : ℚ) (hsig : 0 < signal) (hcash : 0 < s.cash)
    (hprice : 0 < price) :
    (execute_trade B s signal price).positions
      = s.positions + (s.cash - calculate_commission B s.cash) / price
    ∧ (execute_trade B s signal price).cash = 0 := by
  unfold execute_trade
  rw [if_pos ⟨hsig, hcash⟩]
  exact ⟨rfl, by simp⟩

/-- Witness for C5 at a concrete input. -/
theorem execute_trade_buy_invests_all_cash_w :
    ((0:ℤ) < 1 ∧ (0:ℚ) < 2000 ∧ (0:ℚ) < 10) ∧
    ((execute_trade defaultBacktester ⟨2000, 0, 0, 0⟩ 1 10).positions
      = 0 + (2000 - calculate_commission defaultBacktester 2000) / 10
    ∧ (execute_trade defaultBacktester ⟨2000, 0, 0, 0⟩ 1 10).cash = 0) :=
  ⟨⟨by decide, by norm_num, by norm_num⟩,
    execute_trade_buy_invests_all_cash defaultBacktester ⟨2000, 0, 0, 0⟩ 1 10
      (by decide) (by norm_num) (by norm_num)⟩

/-- C1 counterexample: a zero signal with an open long position does NOT
liquidate: the executor leaves the state unchanged (positions stay 2, cash
stays 0), refuting liquidation for all non-positive signals. -/
theorem execute_trade_zero_signal_cex :
    (0:ℚ) < (2:ℚ) ∧ (0:ℚ) < (3:ℚ) ∧
    execute_trade defaultBacktester ⟨0, 2, 0, 0⟩ 0 3 = ⟨0, 2, 0, 0⟩ := by
  refine ⟨by norm_num, by norm_num, ?_⟩
  simp [execute_trade]

/-- C1 amended: the executor liquidates the whole position exactly for
strictly negative signals (cash grows by `positions * price` minus
commission, positions become 0); a zero signal is always a no-op. -/
theorem execute_trade_liquidates_only_on_negative (B : Backtester)
    (s : AssetState) (price : ℚ) (signal : ℤ) :
    (signal < 0 → 0 < s.positions →
      execute_trade B s signal price =
        { s with
            cash := s.cash + s.positions * price
              - calculate_commission B (s.positions * price),
            positions := 0 })
    ∧ execute_trade B s 0 price = s := by
  constructor
  · intro hneg hpos
    unfold execute_trade
    rw [if_neg (fun h => absurd h.1 (by omega)), if_pos ⟨hneg, hpos⟩]
  · unfold execute_trade
    simp

/-- Witness for C1's amended theorem at a concrete input. -/
theorem execute_trade_liquidates_only_on_negative_w :
    ((-1:ℤ) < 0 ∧ (0:ℚ) < (2:ℚ)) ∧
    execute_trade defaultBacktester ⟨0, 2, 0, 0⟩ (-1) 3 = ⟨5, 0, 0, 0⟩ := by
  have h :=
    (execute_trade_liquidates_only_on_negative defaultBacktester
      ⟨0, 2, 0, 0⟩ 3 (-1)).1 (by decide) (by norm_num)
  refine ⟨⟨by decide, by norm_num⟩, ?_⟩
  rw [h]
  norm_num [calculate_commission, defaultBacktester, max_def]

/-- C6 counterexample: from a state satisfying all the claim's preconditions
(cash = 1/2 ≥ 0, positions = 0, price = 1 > 0), a buy signal produces a
negative share count, because the fixed commission (1) exceeds the cash. -/
theorem execute_trade_negative_positions_cex :
    ((0:ℚ) ≤ (1/2:ℚ) ∧ (0:ℚ) ≤ (0:ℚ) ∧ (0:ℚ) < (1:ℚ)) ∧
    (execute_trade defaultBacktester ⟨1/2, 0, 0, 0⟩ 1 1).positions < 0 := by
  refine ⟨⟨by norm_num, le_refl 0, by norm_num⟩, ?_⟩
  norm_num [execute_trade, calculate_commission, defaultBacktester, max_def]

/-- C6 amended: non-negativity of cash and positions is preserved by the
executor provided the commission charged on an executed trade never exceeds
the trade value. -/
theorem execute_trade_preserves_nonneg (B : Backtester) (s : AssetState)
    (signal : ℤ) (price : ℚ) (hc : 0 ≤ s.cash) (hp : 0 ≤ s.positions)
    (hprice : 0 < price)
    (hbuy : 0 < s.cash → calculate_commission B s.cash ≤ s.cash)
    (hsell : 0 < s.positions →
      calculate_commission B (s.positions * price) ≤ s.positions * price) :
    0 ≤ (execute_trade B s signal price).cash
    ∧ 0 ≤ (execute_trade B s signal price).positions := by
  unfold execute_trade
  split_ifs with h1 h2
  · refine ⟨by simp, ?_⟩
    have hcomm := hbuy h1.2
    have : 0 ≤ (s.cash - calculate_commission B s.cash) / price :=
      div_nonneg (by linarith) hprice.le
    simpa using add_nonneg hp this
  · refine ⟨?_, le_refl 0⟩
    have hcomm := hsell h2.2
    simp only
    linarith
  · exact ⟨hc, hp⟩

/-- Witness for C6's amended theorem at a concrete input. -/
theorem execute_trade_preserves_nonneg_w :
    ((0:ℚ) ≤ 2000 ∧ (0:ℚ) ≤ 0 ∧ (0:ℚ) < 10) ∧
    (0 ≤ (execute_trade defaultBacktester ⟨2000, 0, 0, 0⟩ 1 10).cash
    ∧ 0 ≤ (execute_trade defaultBacktester ⟨2000, 0, 0, 0⟩ 1 10).positions) :=
  ⟨⟨by norm_num, le_refl 0, by norm_num⟩,
    execute_trade_preserves_nonneg defaultBacktester ⟨2000, 0, 0, 0⟩ 1 10
      (by norm_num) (le_refl 0) (by norm_num)
      (fun _ => by norm_num [calculate_commission, defaultBacktester, max_def])
      (fun h => absurd h (by norm_num))⟩

/-- C10: the total return round-trips: feeding `initial_capital * (1 + r)`
back through `calculate_total_return` recovers `r` exactly. -/
theorem calculate_total_return_round_trip (r initial_capital : ℚ)
    (h : 0 < initial_capital) :
    calculate_total_return (initial_capital * (1 + r)) initial_capital = r := by
  unfold calculate_total_return
  field_simp

/-- Witness for C10 at a concrete input. -/
theorem calculate_total_return_round_trip_w :
    (0:ℚ) < 2 ∧ calculate_total_return (2 * (1 + 5)) 2 = 5 :=
  ⟨by norm_num, calculate_total_return_round_trip 5 2 (by norm_num)⟩

/-- C3 (code bug): with zero annualized volatility and a positive excess
return, `calculate_sharpe_ratio` yields positive infinity, not the NaN
sentinel the documentation promises — the `except RuntimeError` guard
never fires for a division by zero. -/
theorem calculate_sharpe_ratio_zero_vol_is_inf :
    calculate_sharpe_ratio (1/10) 0 0 = NPFloat.inf
    ∧ NPFloat.inf ≠ NPFloat.nan := by
  refine ⟨?_, by simp⟩
  norm_num [calculate_sharpe_ratio, npdiv]

/-- C2 (code bug): the driver accepts a series with a negative close price
and silently produces a portfolio value series (buying `-9990` shares at
price `-1`), instead of rejecting the input. -/
theorem backtest_accepts_nonpositive_price :
    backtest defaultBacktester [[⟨-1, 1⟩]] = [9990] := by
  norm_num [backtest, run_asset, initState, stepAsset, update_portfolio,
    execute_trade, calculate_commission, defaultBacktester, max_def]

/-- Every entry of the drawdown series built over the running maximum started
at a positive accumulator is non-positive. -/
theorem drawdown_entries_nonpos (xs : List ℚ) :
    ∀ m : ℚ, 0 < m → (∀ x ∈ xs, 0 < x) →
      ∀ y ∈ List.zipWith (fun v mm => v / mm - 1) xs (cummaxAux m xs), y ≤ 0 := by
  induction xs with
  | nil => intro m _ _ y hy; simp [cummaxAux] at hy
  | cons x xs ih =>
    intro m hm hpos y hy
    rw [cummaxAux, List.zipWith_cons_cons] at hy
    rcases List.mem_cons.mp hy with h | h
    · have hx : 0 < x := hpos x (List.mem_cons_self _ _)
      have hmx : 0 < max m x := lt_max_iff.mpr (Or.inr hx)
      have hle : x / max m x ≤ 1 := (div_le_one hmx).mpr (le_max_right m x)
      rw [h]
      linarith
    · exact ih (max m x) (lt_max_iff.mpr (Or.inl hm))
        (fun z hz => hpos z (List.mem_cons_of_mem _ hz)) y h

/-- `listMin` of a non-empty list is a member of the list and a lower bound
for it. -/
theorem listMin_spec (x : ℚ) (xs : List ℚ) :
    ∃ d, listMin (x :: xs) = some d ∧ d ∈ x :: xs ∧ ∀ y ∈ x :: xs, d ≤ y := by
  induction xs generalizing x with
  | nil =>
    refine ⟨x, rfl, List.mem_cons_self _ _, ?_⟩
    intro y hy
    have hyx : y = x := by simpa using hy
    rw [hyx]
  | cons z zs ih =>
    obtain ⟨d, hd, hmem, hlb⟩ := ih z
    refine ⟨min x d, ?_, ?_, ?_⟩
    · have hu : listMin (x :: z :: zs)
          = some
            (match listMin (z :: zs) with
              | none => x
              | some m => min x m) := rfl
      rw [hu, hd]
    · rcases min_cases x d with ⟨he, _⟩ | ⟨he, _⟩
      · rw [he]; exact List.mem_cons_self _ _
      · rw [he]; exact List.mem_cons_of_mem _ hmem
    · intro y hy
      rcases List.mem_cons.mp hy with rfl | hy'
      · exact min_le_left _ _
      · exact le_trans (min_le_right x d) (hlb y hy')

/-- Along a non-decreasing chain the running maximum is the list itself. -/
theorem cummaxAux_of_chain (xs : List ℚ) :
    ∀ m : ℚ, List.Chain (· ≤ ·) m xs → cummaxAux m xs = xs := by
  induction xs with
  | nil => intro m _; rfl
  | cons x xs ih =>
    intro m hc
    cases hc with
    | cons hmx hc' => rw [cummaxAux, max_eq_right hmx, ih x hc']

/-- Drawdown of a positive series against itself is identically zero. -/
theorem zipWith_self_drawdown (xs : List ℚ) (hpos : ∀ x ∈ xs, 0 < x) :
    List.zipWith (fun v mm => v / mm - 1) xs xs = List.replicate xs.length 0 := by
  induction xs with
  | nil => rfl
  | cons x xs ih =>
    have hx : 0 < x := hpos x (List.mem_cons_self _ _)
    rw [List.zipWith_cons_cons, List.length_cons, List.replicate_succ]
    congr 1
    · rw [div_self (ne_of_gt hx)]; norm_num
    · exact ih (fun z hz => hpos z (List.mem_cons_of_mem _ hz))

/-- The minimum of a non-empty all-zero list is zero. -/
theorem listMin_replicate_zero (n : ℕ) :
    listMin (List.replicate (n + 1) 0) = some 0 := by
  induction n with
  | zero => rfl
  | succ k ih =>
    rw [List.replicate_succ]
    have hu : listMin ((0:ℚ) :: List.replicate (k + 1) 0)
        = some
          (match listMin (List.replicate (k + 1) (0:ℚ)) with
            | none => (0:ℚ)
            | some m => min 0 m) := rfl
    rw [hu, ih]
    simp

/-- If every drawdown entry over the running maximum is zero, the series is a
non-decreasing chain from the accumulator. -/
theorem chain_of_drawdown_zero (xs : List ℚ) :
    ∀ m : ℚ, 0 < m → (∀ x ∈ xs, 0 < x) →
      (∀ y ∈ List.zipWith (fun v mm => v / mm - 1) xs (cummaxAux m xs), y = 0) →
      List.Chain (· ≤ ·) m xs := by
  induction xs with
  | nil => intro m _ _ _; exact List.Chain.nil
  | cons x xs ih =>
    intro m hm hpos hz
    have hx : 0 < x := hpos x (List.mem_cons_self _ _)
    have hmx : 0 < max m x := lt_max_iff.mpr (Or.inr hx)
    have h0 : x / max m x - 1 = 0 := by
      apply hz
      rw [cummaxAux, List.zipWith_cons_cons]
      exact List.mem_cons_self _ _
    have h1 : x / max m x = 1 := by linarith
    have hxm : x = max m x := (div_eq_one_iff_eq (ne_of_gt hmx)).mp h1
    have hmle : m ≤ x := by rw [hxm]; exact le_max_left m x
    refine List.Chain.cons hmle ?_
    apply ih x hx (fun z hz' => hpos z (List.mem_cons_of_mem _ hz'))
    intro y hy
    refine hz y ?_
    rw [cummaxAux, ← hxm, List.zipWith_cons_cons]
    exact List.mem_cons_of_mem _ hy

/-- C7: on a non-empty positive series, `calculate_maximum_drawdown` returns
the minimum over time of `value[t] / running_max(value[0..t]) - 1`; this
minimum is always ≤ 0 and equals 0 exactly when the series is non-decreasing
(adjacent entries satisfy `≤`, i.e. `List.Chain'`). -/
theorem calculate_maximum_drawdown_spec (vs : List ℚ) (hne : vs ≠ [])
    (hpos : ∀ v ∈ vs, 0 < v) :
    ∃ d, calculate_maximum_drawdown vs = some d
      ∧ d ∈ List.zipWith (fun v m => v / m - 1) vs (cummax vs)
      ∧ (∀ y ∈ List.zipWith (fun v m => v / m - 1) vs (cummax vs), d ≤ y)
      ∧ d ≤ 0
      ∧ (d = 0 ↔ List.Chain' (· ≤ ·) vs) := by
  match vs, hne with
  | x :: xs, _ =>
    have hx : 0 < x := hpos x (List.mem_cons_self _ _)
    have hxtail : ∀ z ∈ xs, 0 < z := fun z hz => hpos z (List.mem_cons_of_mem _ hz)
    have hhead : x / x - 1 = 0 := by rw [div_self (ne_of_gt hx)]; norm_num
    have hddEq :
        List.zipWith (fun v m => v / m - 1) (x :: xs) (cummax (x :: xs))
          = (x / x - 1)
              :: List.zipWith (fun v m => v / m - 1) xs (cummaxAux x xs) := by
      rw [cummax, List.zipWith_cons_cons]
    obtain ⟨d, hd, hmem, hlb⟩ :=
      listMin_spec (x / x - 1) (List.zipWith (fun v m => v / m - 1) xs (cummaxAux x xs))
    refine ⟨d, ?_, ?_, ?_, ?_, ?_⟩
    · rw [calculate_maximum_drawdown, hddEq]
      exact hd
    · rw [hddEq]
      exact hmem
    · intro y hy
      rw [hddEq] at hy
      exact hlb y hy
    · have h1 := hlb (x / x - 1) (List.mem_cons_self _ _)
      linarith
    · constructor
      · intro hd0
        show List.Chain (· ≤ ·) x xs
        apply chain_of_drawdown_zero xs x hx hxtail
        intro y hy
        have h1 : d ≤ y := hlb y (List.mem_cons_of_mem _ hy)
        have h2 : y ≤ 0 := drawdown_entries_nonpos xs x hx hxtail y hy
        linarith
      · intro hch
        have hch' : List.Chain (· ≤ ·) x xs := hch
        have he : cummaxAux x xs = xs := cummaxAux_of_chain xs x hch'
        have hdd :
            (x / x - 1)
              :: List.zipWith (fun v m => v / m - 1) xs (cummaxAux x xs)
              = List.replicate (xs.length + 1) 0 := by
          rw [hhead, he, zipWith_self_drawdown xs hxtail, List.replicate_succ]
        rw [hdd, listMin_replicate_zero xs.length] at hd
        exact (Option.some_inj.mp hd).symm

/-- Witness for C7 at a concrete input. -/
theorem calculate_maximum_drawdown_spec_w :
    (([4, 2, 3] : List ℚ) ≠ [] ∧ ∀ v ∈ ([4, 2, 3] : List ℚ), 0 < v) ∧
    ∃ d, calculate_maximum_drawdown [4, 2, 3] = some d
      ∧ d ∈ List.zipWith (fun v m => v / m - 1) [4, 2, 3] (cummax [4, 2, 3])
      ∧ (∀ y ∈ List.zipWith (fun v m => v / m - 1) [4, 2, 3] (cummax [4, 2, 3]),
          d ≤ y)
      ∧ d ≤ 0
      ∧ (d = 0 ↔ List.Chain' (· ≤ ·) ([4, 2, 3] : List ℚ)) :=
  ⟨⟨by simp, by norm_num⟩,
    calculate_maximum_drawdown_spec [4, 2, 3] (by simp) (by norm_num)⟩

/-- C8: if the daily returns contain no negative entry, the Sortino ratio is
the NaN sentinel (the filtered series is empty, so its standard deviation is
NaN); otherwise, whenever the downside volatility `std * sqrt(252)` is
defined and positive, the result is
`(annualized_return - risk_free_rate) / downside_volatility`. -/
theorem calculate_sortino_ratio_spec (xs : List ℚ) (a r : ℝ) :
    ((∀ x ∈ xs, 0 ≤ x) → calculate_sortino_ratio xs a r = none)
    ∧ (∀ sd : ℝ, sampleStd (xs.filter (fun x => x < 0)) = some sd →
        0 < sd * Real.sqrt 252 →
        calculate_sortino_ratio xs a r = some ((a - r) / (sd * Real.sqrt 252))) := by
  constructor
  · intro hnn
    have hfil : xs.filter (fun x => x < 0) = [] := by
      rw [List.filter_eq_nil_iff]
      intro x hx
      simpa using hnn x hx
    have hstd : sampleStd (xs.filter (fun x => x < 0)) = none := by
      rw [hfil]
      unfold sampleStd
      simp
    unfold calculate_sortino_ratio
    rw [hstd]
  · intro sd hsd hpos
    unfold calculate_sortino_ratio
    rw [hsd]
    simp only
    rw [if_pos hpos]

/-- Witness for C8 at concrete inputs: an all-non-negative return series
yields the sentinel, and a series with two negative returns yields the
documented ratio. -/
theorem calculate_sortino_ratio_spec_w :
    (∀ x ∈ ([1, 2] : List ℚ), 0 ≤ x)
    ∧ calculate_sortino_ratio [1, 2] 1 0 = none
    ∧ sampleStd (([-1, -3] : List ℚ).filter (fun x => x < 0))
        = some (Real.sqrt 2)
    ∧ (0:ℝ) < Real.sqrt 2 * Real.sqrt 252
    ∧ calculate_sortino_ratio [-1, -3] 1 0
        = some ((1 - 0) / (Real.sqrt 2 * Real.sqrt 252)) := by
  have hfil : ([-1, -3] : List ℚ).filter (fun x => x < 0) = [-1, -3] := by
    rw [List.filter_eq_self]
    intro a ha
    simp only [decide_eq_true_eq]
    fin_cases ha <;> norm_num
  have hvar : ((sampleVar [-1, -3] : ℚ) : ℝ) = 2 := by
    norm_num [sampleVar, mean]
  have hstd : sampleStd (([-1, -3] : List ℚ).filter (fun x => x < 0))
      = some (Real.sqrt 2) := by
    rw [hfil]
    unfold sampleStd
    rw [if_neg (by norm_num), hvar]
  have hpos : (0:ℝ) < Real.sqrt 2 * Real.sqrt 252 :=
    mul_pos (Real.sqrt_pos.mpr (by norm_num)) (Real.sqrt_pos.mpr (by norm_num))
  exact ⟨by norm_num,
    (calculate_sortino_ratio_spec [1, 2] 1 0).1 (by norm_num),
    hstd, hpos,
    (calculate_sortino_ratio_spec [-1, -3] 1 0).2 (Real.sqrt 2) hstd hpos⟩

/-- With a non-positive signal and no open position, one driver step is a
pure revaluation of the cash: the state stays flat. -/
theorem stepAsset_flat (B : Backtester) (s : AssetState) (r : PriceSignalRecord)
    (hsig : r.signal ≤ 0) (hpos : s.positions = 0) :
    stepAsset B s r = ⟨s.cash, 0, 0, s.cash⟩ := by
  obtain ⟨c, p, pv, tv⟩ := s
  simp only at hpos
  subst hpos
  unfold stepAsset execute_trade update_portfolio
  rw [if_neg (fun h => absurd h.1 (not_lt.mpr hsig)),
    if_neg (fun h => absurd h.2 (lt_irrefl 0))]
  simp

/-- A series of non-positive signals keeps the asset flat at every step: the
whole trace is the constant flat state. -/
theorem asset_trace_flat (B : Backtester) (recs : List PriceSignalRecord) :
    ∀ s : AssetState, (∀ r ∈ recs, r.signal ≤ 0) → s.positions = 0 →
      asset_trace B s recs = List.replicate recs.length ⟨s.cash, 0, 0, s.cash⟩ := by
  induction recs with
  | nil => intro s _ _; rfl
  | cons r rs ih =>
    intro s hs hp
    have hstep := stepAsset_flat B s r (hs r (List.mem_cons_self _ _)) hp
    rw [List.length_cons, List.replicate_succ, asset_trace, hstep,
      ih ⟨s.cash, 0, 0, s.cash⟩ (fun z hz => hs z (List.mem_cons_of_mem _ hz)) rfl]

/-- The per-asset value history is the `total_value` component of the state
trace. -/
theorem asset_values_eq_map (B : Backtester) :
    ∀ (recs : List PriceSignalRecord) (s : AssetState),
      asset_values B s recs = (asset_trace B s recs).map AssetState.total_value := by
  intro recs
  induction recs with
  | nil => intro s; rfl
  | cons r rs ih => intro s; rw [asset_values, asset_trace, List.map_cons, ih]

/-- While the combined accumulator is shorter than the asset's series, the
inner loop only appends: it extends the accumulator with this asset's value
history. -/
theorem run_asset_append (B : Backtester) (L : ℕ) :
    ∀ (recs : List PriceSignalRecord) (s : AssetState) (i : ℕ) (daily : List ℚ),
      daily.length + recs.length ≤ L →
      run_asset B L s recs i daily = daily ++ asset_values B s recs := by
  intro recs
  induction recs with
  | nil => intro s i daily _; simp [run_asset, asset_values]
  | cons r rs ih =>
    intro s i daily h
    have hlt : daily.length < L := by
      simp only [List.length_cons] at h
      omega
    rw [run_asset]
    simp only [if_pos hlt]
    rw [ih (stepAsset B s r) (i + 1) (daily ++ [(stepAsset B s r).total_value])
      (by simp only [List.length_append, List.length_cons, List.length_nil] at h ⊢; omega)]
    rw [asset_values, List.append_assoc, List.singleton_append]

/-- C9: with all-non-positive signals on a single positive-price series, the
asset never leaves the flat state (positions are 0 after every step) and
every entry of the combined daily portfolio value series equals the initial
capital exactly. -/
theorem backtest_all_flat (B : Backtester) (recs : List PriceSignalRecord)
    (hne : recs ≠ []) (hsig : ∀ r ∈ recs, r.signal ≤ 0)
    (hprice : ∀ r ∈ recs, 0 < r.close) :
    (∀ t ∈ asset_trace B (initState B 1) recs, t.positions = 0)
    ∧ backtest B [recs] = List.replicate recs.length B.initial_capital := by
  have hcash : (initState B 1).cash = B.initial_capital := by
    simp [initState]
  have htrace := asset_trace_flat B recs (initState B 1) hsig rfl
  constructor
  · intro t ht
    rw [htrace] at ht
    rw [List.eq_of_mem_replicate ht]
  · unfold backtest
    simp only [List.foldl_cons, List.foldl_nil, List.length_singleton]
    rw [run_asset_append B recs.length recs (initState B 1) 0 [] (by simp),
      List.nil_append, asset_values_eq_map, htrace, List.map_replicate, hcash]

/-- Witness for C9 at a concrete input. -/
theorem backtest_all_flat_w :
    (([⟨5, 0⟩, ⟨7, -1⟩] : List PriceSignalRecord) ≠ []
      ∧ (∀ r ∈ ([⟨5, 0⟩, ⟨7, -1⟩] : List PriceSignalRecord), r.signal ≤ 0)
      ∧ (∀ r ∈ ([⟨5, 0⟩, ⟨7, -1⟩] : List PriceSignalRecord), 0 < r.close)) ∧
    ((∀ t ∈ asset_trace defaultBacktester (initState defaultBacktester 1)
        [⟨5, 0⟩, ⟨7, -1⟩], t.positions = 0)
    ∧ backtest defaultBacktester [[⟨5, 0⟩, ⟨7, -1⟩]]
        = List.replicate ([⟨5, 0⟩, ⟨7, -1⟩] : List PriceSignalRecord).length
            defaultBacktester.initial_capital) :=
  ⟨⟨by simp, by norm_num, by norm_num⟩,
    backtest_all_flat defaultBacktester [⟨5, 0⟩, ⟨7, -1⟩]
      (by simp) (by norm_num) (by norm_num)⟩

/-- Buy branch of the executor, as an equation. -/
theorem execute_trade_pos (B : Backtester) (s : AssetState) (signal : ℤ)
    (price : ℚ) (h : signal > 0 ∧ s.cash > 0) :
    execute_trade B s signal price =
      { s with
          positions := s.positions + (s.cash - calculate_commission B s.cash) / price,
          cash := s.cash - s.cash } := by
  unfold execute_trade
  rw [if_pos h]

/-- Sell branch of the executor, as an equation. -/
theorem execute_trade_neg (B : Backtester) (s : AssetState) (signal : ℤ)
    (price : ℚ) (h1 : ¬(signal > 0 ∧ s.cash > 0))
    (h2 : signal < 0 ∧ s.positions > 0) :
    execute_trade B s signal price =
      { s with
          cash := s.cash + s.positions * price
            - calculate_commission B (s.positions * price),
          positions := 0 } := by
  unfold execute_trade
  rw [if_neg h1, if_pos h2]

/-- No-op branch of the executor, as an equation. -/
theorem execute_trade_noop (B : Backtester) (s : AssetState) (signal : ℤ)
    (price : ℚ) (h1 : ¬(signal > 0 ∧ s.cash > 0))
    (h2 : ¬(signal < 0 ∧ s.positions > 0)) :
    execute_trade B s signal price = s := by
  unfold execute_trade
  rw [if_neg h1, if_neg h2]

/-- With no fixed fee the commission is homogeneous: scaling the trade value
by a non-negative factor scales the fee by the same factor. -/
theorem calculate_commission_smul (B : Backtester) (hfix : B.commission_fixed = 0)
    (l v : ℚ) (hl : 0 ≤ l) :
    calculate_commission B (l * v) = l * calculate_commission B v := by
  unfold calculate_commission
  rw [hfix, mul_max_of_nonneg _ _ hl, mul_zero, mul_assoc]

/-- With no fixed fee the executor is homogeneous in the monetary state. -/
theorem execute_trade_smul (B : Backtester) (hfix : B.commission_fixed = 0)
    (l : ℚ) (hl : 0 < l) (s : AssetState) (signal : ℤ) (price : ℚ) :
    execute_trade B (scale l s) signal price
      = scale l (execute_trade B s signal price) := by
  by_cases h1 : signal > 0 ∧ s.cash > 0
  · have h1' : signal > 0 ∧ (scale l s).cash > 0 :=
      ⟨h1.1, by simpa [scale] using mul_pos hl h1.2⟩
    rw [execute_trade_pos B (scale l s) signal price h1',
      execute_trade_pos B s signal price h1]
    obtain ⟨c, p, pv, tv⟩ := s
    simp only [scale, AssetState.mk.injEq]
    rw [calculate_commission_smul B hfix l c hl.le]
    refine ⟨?_, ?_, ?_, ?_⟩ <;> first | trivial | ring
  · have h1' : ¬(signal > 0 ∧ (scale l s).cash > 0) := by
      rintro ⟨hs, hc⟩
      simp only [scale] at hc
      rcases mul_pos_iff.mp hc with ⟨_, hcash⟩ | ⟨hneg, _⟩
      · exact h1 ⟨hs, hcash⟩
      · exact absurd hl (not_lt.mpr hneg.le)
    by_cases h2 : signal < 0 ∧ s.positions > 0
    · have h2' : signal < 0 ∧ (scale l s).positions > 0 :=
        ⟨h2.1, by simpa [scale] using mul_pos hl h2.2⟩
      rw [execute_trade_neg B (scale l s) signal price h1' h2',
        execute_trade_neg B s signal price h1 h2]
      obtain ⟨c, p, pv, tv⟩ := s
      simp only [scale, AssetState.mk.injEq]
      rw [show l * p * price = l * (p * price) by ring,
        calculate_commission_smul B hfix l (p * price) hl.le]
      refine ⟨?_, ?_, ?_, ?_⟩ <;> first | trivial | ring
    · have h2' : ¬(signal < 0 ∧ (scale l s).positions > 0) := by
        rintro ⟨hs, hp⟩
        simp only [scale] at hp
        rcases mul_pos_iff.mp hp with ⟨_, hpos⟩ | ⟨hneg, _⟩
        · exact h2 ⟨hs, hpos⟩
        · exact absurd hl (not_lt.mpr hneg.le)
      rw [execute_trade_noop B (scale l s) signal price h1' h2',
        execute_trade_noop B s signal price h1 h2]

/-- Revaluation is homogeneous in the monetary state. -/
theorem update_portfolio_smul (l : ℚ) (s : AssetState) (price : ℚ) :
    update_portfolio (scale l s) price = scale l (update_portfolio s price) := by
  obtain ⟨c, p, pv, tv⟩ := s
  simp only [update_portfolio, scale, AssetState.mk.injEq]
  refine ⟨?_, ?_, ?_, ?_⟩ <;> first | trivial | ring

/-- With no fixed fee one driver step is homogeneous in the monetary state. -/
theorem stepAsset_smul (B : Backtester) (hfix : B.commission_fixed = 0)
    (l : ℚ) (hl : 0 < l) (s : AssetState) (r : PriceSignalRecord) :
    stepAsset B (scale l s) r = scale l (stepAsset B s r) := by
  unfold stepAsset
  rw [execute_trade_smul B hfix l hl s r.signal r.close, update_portfolio_smul]

/-- With no fixed fee the per-asset value history scales with the initial
monetary state. -/
theorem asset_values_smul (B : Backtester) (hfix : B.commission_fixed = 0)
    (l : ℚ) (hl : 0 < l) :
    ∀ (recs : List PriceSignalRecord) (s : AssetState),
      asset_values B (scale l s) recs
        = (asset_values B s recs).map (fun y => l * y) := by
  intro recs
  induction recs with
  | nil => intro s; rfl
  | cons r rs ih =>
    intro s
    rw [asset_values, asset_values, List.map_cons, stepAsset_smul B hfix l hl s r,
      ih (stepAsset B s r)]
    have : (scale l (stepAsset B s r)).total_value
        = l * (stepAsset B s r).total_value := rfl
    rw [this]

/-- `listAddAt` at the index of the boundary between two list parts adds into
the head of the second part. -/
theorem listAddAt_append (v : ℚ) :
    ∀ (d1 : List ℚ) (d : ℚ) (ds : List ℚ),
      listAddAt (d1 ++ d :: ds) d1.length v = d1 ++ (d + v) :: ds := by
  intro d1
  induction d1 with
  | nil => intro d ds; rfl
  | cons x xs ih =>
    intro d ds
    rw [List.cons_append, List.length_cons, listAddAt, ih d ds, List.cons_append]

/-- Once the combined accumulator is at least as long as the asset's series,
the inner loop adds the asset's value history into the accumulator
elementwise, starting at the current index. -/
theorem run_asset_accumulate (B : Backtester) (L : ℕ) :
    ∀ (recs : List PriceSignalRecord) (s : AssetState) (daily1 daily2 : List ℚ),
      daily2.length = recs.length → daily1.length + daily2.length = L →
      run_asset B L s recs daily1.length (daily1 ++ daily2)
        = daily1 ++ List.zipWith (· + ·) daily2 (asset_values B s recs) := by
  intro recs
  induction recs with
  | nil =>
    intro s daily1 daily2 hlen _
    have h2 : daily2 = [] := List.length_eq_zero.mp hlen
    subst h2
    simp [run_asset, asset_values]
  | cons r rs ih =>
    intro s daily1 daily2 hlen hL
    cases daily2 with
    | nil => simp at hlen
    | cons d ds =>
      have hnotlt : ¬((daily1 ++ d :: ds).length < L) := by
        simp only [List.length_append, List.length_cons] at hL ⊢
        omega
      rw [run_asset]
      simp only [if_neg hnotlt]
      rw [listAddAt_append ((stepAsset B s r).total_value) daily1 d ds]
      have hlen' : ds.length = rs.length := by
        simpa using hlen
      have hL' : (daily1 ++ [d + (stepAsset B s r).total_value]).length
          + ds.length = L := by
        simp only [List.length_append, List.length_cons] at hL ⊢
        simp only [List.length_nil]
        omega
      have hsplit : daily1 ++ (d + (stepAsset B s r).total_value) :: ds
          = (daily1 ++ [d + (stepAsset B s r).total_value]) ++ ds := by
        rw [List.append_assoc, List.singleton_append]
      have hia : daily1.length + 1
          = (daily1 ++ [d + (stepAsset B s r).total_value]).length := by
        simp
      rw [hsplit, hia,
        ih (stepAsset B s r) (daily1 ++ [d + (stepAsset B s r).total_value]) ds
          hlen' hL']
      rw [asset_values, List.zipWith_cons_cons, List.append_assoc,
        List.singleton_append]

/-- The value history has one entry per processed row. -/
theorem asset_values_length (B : Backtester) :
    ∀ (recs : List PriceSignalRecord) (s : AssetState),
      (asset_values B s recs).length = recs.length := by
  intro recs
  induction recs with
  | nil => intro s; rfl
  | cons r rs ih => intro s; rw [asset_values, List.length_cons, List.length_cons, ih]

/-- Adding zero copies elementwise is the identity on equal-length lists. -/
theorem zipWith_add_zero_smul :
    ∀ (xs ys : List ℚ), xs.length = ys.length →
      List.zipWith (fun x y => x + (0:ℚ) * y) xs ys = xs := by
  intro xs
  induction xs with
  | nil => intro ys _; rfl
  | cons x xs ih =>
    intro ys hlen
    cases ys with
    | nil => simp at hlen
    | cons y ys =>
      rw [List.zipWith_cons_cons, ih ys (by simpa using hlen)]
      norm_num

/-- Folding one more elementwise addition into a `q`-fold sum gives a
`(q+1)`-fold sum, on equal-length lists. -/
theorem zipWith_add_step (q : ℚ) :
    ∀ (xs ys : List ℚ), xs.length = ys.length →
      List.zipWith (fun x y => x + q * y) (List.zipWith (· + ·) xs ys) ys
        = List.zipWith (fun x y => x + (q + 1) * y) xs ys := by
  intro xs
  induction xs with
  | nil => intro ys _; rfl
  | cons x xs ih =>
    intro ys hlen
    cases ys with
    | nil => rfl
    | cons y ys =>
      rw [List.zipWith_cons_cons, List.zipWith_cons_cons, List.zipWith_cons_cons,
        ih ys (by simpa using hlen)]
      congr 1
      ring

/-- Adding a list to itself `m` times via the inner loop: the combined
accumulator after `m` further identical assets holds `daily + m * history`
elementwise. -/
theorem foldl_replicate_formula (B : Backtester) (st : AssetState)
    (recs : List PriceSignalRecord) :
    ∀ (m : ℕ) (daily : List ℚ), daily.length = recs.length →
      List.foldl (fun d rs => run_asset B rs.length st rs 0 d) daily
          (List.replicate m recs)
        = List.zipWith (fun x y => x + (m : ℚ) * y) daily
            (asset_values B st recs) := by
  intro m
  induction m with
  | zero =>
    intro daily hlen
    rw [List.replicate_zero, List.foldl_nil, Nat.cast_zero,
      zipWith_add_zero_smul daily (asset_values B st recs)
        (by rw [asset_values_length]; exact hlen)]
  | succ k ih =>
    intro daily hlen
    rw [List.replicate_succ, List.foldl_cons]
    have hstep := run_asset_accumulate B recs.length recs st [] daily hlen (by simpa using hlen)
    simp only [List.nil_append, List.length_nil] at hstep
    rw [hstep]
    rw [ih (List.zipWith (· + ·) daily (asset_values B st recs))
      (by rw [List.length_zipWith, asset_values_length, hlen]; omega)]
    rw [zipWith_add_step (k : ℚ) daily (asset_values B st recs)
      (by rw [asset_values_length]; exact hlen)]
    congr 1
    push_cast
    ring

/-- Adding `q` copies of a list to itself is pointwise scaling by `q + 1`. -/
theorem zipWith_self_smul (q : ℚ) :
    ∀ xs : List ℚ,
      List.zipWith (fun x y => x + q * y) xs xs = xs.map (fun y => (q + 1) * y) := by
  intro xs
  induction xs with
  | nil => rfl
  | cons x xs ih =>
    rw [List.zipWith_cons_cons, List.map_cons, ih]
    congr 1
    ring

/-- C4 counterexample: with the default configuration (fixed fee 1), splitting
10000 across 11 identical one-row assets pays 11 units of minimum commission
instead of 10, so the combined daily value series differs from the
single-asset run (9989 versus 9990). -/
theorem backtest_scale_invariance_cex :
    backtest defaultBacktester (List.replicate 11 [⟨100, 1⟩])
      ≠ backtest defaultBacktester [[⟨100, 1⟩]] := by
  have h1 : backtest defaultBacktester [[⟨100, 1⟩]] = [9990] := by
    norm_num [backtest, run_asset, initState, stepAsset, update_portfolio,
      execute_trade, calculate_commission, defaultBacktester, max_def, listAddAt]
  have h2 : backtest defaultBacktester (List.replicate 11 [⟨100, 1⟩])
      = [9989] := by
    norm_num [backtest, run_asset, initState, stepAsset, update_portfolio,
      execute_trade, calculate_commission, defaultBacktester, max_def, listAddAt,
      List.replicate_succ]
  rw [h1, h2]
  intro h
  rw [List.cons.injEq] at h
  exact absurd h.1 (by norm_num)

/-- C4 amended: with a purely proportional commission (`commission_fixed = 0`)
splitting the capital across `N ≥ 1` identical assets with the same series
yields exactly the same combined daily portfolio value series as one asset
with the full capital.  (With a positive fixed fee the fee floor can bind at
the smaller per-asset size and the equality fails.) -/
theorem backtest_scale_invariance (B : Backtester) (recs : List PriceSignalRecord)
    (N : ℕ) (hN : 0 < N) (hfix : B.commission_fixed = 0) :
    backtest B (List.replicate N recs) = backtest B [recs] := by
  obtain ⟨m, rfl⟩ : ∃ m, N = m + 1 := ⟨N - 1, by omega⟩
  have hmne : ((m + 1 : ℕ) : ℚ) ≠ 0 := by positivity
  have hrhs : backtest B [recs] = asset_values B (initState B 1) recs := by
    unfold backtest
    simp only [List.foldl_cons, List.foldl_nil, List.length_singleton]
    have := run_asset_append B recs.length recs (initState B 1) 0 [] (by simp)
    simpa using this
  have hinit : initState B 1 = scale ((m + 1 : ℕ) : ℚ) (initState B (m + 1)) := by
    unfold initState scale
    simp only [AssetState.mk.injEq, mul_zero, and_true]
    rw [Nat.cast_one, div_one, mul_div_cancel₀ B.initial_capital hmne]
  have hvals : asset_values B (initState B 1) recs
      = (asset_values B (initState B (m + 1)) recs).map
          (fun y => ((m + 1 : ℕ) : ℚ) * y) := by
    rw [hinit, asset_values_smul B hfix ((m + 1 : ℕ) : ℚ) (by positivity) recs]
  have hlhs : backtest B (List.replicate (m + 1) recs)
      = List.zipWith (fun x y => x + (m : ℚ) * y)
          (asset_values B (initState B (m + 1)) recs)
          (asset_values B (initState B (m + 1)) recs) := by
    unfold backtest
    simp only [List.length_replicate]
    rw [List.replicate_succ, List.foldl_cons]
    have h1 : run_asset B recs.length (initState B (m + 1)) recs 0 []
        = asset_values B (initState B (m + 1)) recs := by
      have := run_asset_append B recs.length recs (initState B (m + 1)) 0 [] (by simp)
      simpa using this
    rw [h1]
    exact foldl_replicate_formula B (initState B (m + 1)) recs m
      (asset_values B (initState B (m + 1)) recs)
      (asset_values_length B recs (initState B (m + 1)))
  rw [hlhs, hrhs, hvals,
    zipWith_self_smul (m : ℚ) (asset_values B (initState B (m + 1)) recs)]
  congr 1
  push_cast
  ring

/-- Witness for C4's amended theorem at a concrete input. -/
theorem backtest_scale_invariance_w :
    (0 < 2 ∧ (⟨1000, 1/1000, 0⟩ : Backtester).commission_fixed = 0) ∧
    backtest ⟨1000, 1/1000, 0⟩ (List.replicate 2 [⟨100, 1⟩])
      = backtest ⟨1000, 1/1000, 0⟩ [[⟨100, 1⟩]] :=
  ⟨⟨by norm_num, rfl⟩,
    backtest_scale_invariance ⟨1000, 1/1000, 0⟩ [⟨100, 1⟩] 2 (by norm_num) rfl⟩
